import Mathlib

/-!
Verification of the tagged-URN engine (JavaScript implementation).

This file gives a shallow embedding of the parsing / serialization / matching
engine of the tagged-URN library and proves or refutes the behavioural claims
made about it.  The repository ships three near-duplicate variants of the
engine; where they differ, each cited variant is embedded separately:

* the newest variant (with the whitespace check and the asymmetric
  conformsTo / accepts pair) is embedded under plain names such as
  `TaggedUrn.fromString`, `TaggedUrn.conformsTo`, `TaggedUrn.merge`;
* the middle variant contributes `valuesCompatible` / `isCompatibleWith`
  and the compatibility-based `UrnMatcher.areCompatible`;
* the oldest variant (`capns.js`) contributes `Capns.specificity` and
  `Capns.isCompatibleWith`.

JavaScript's `toLowerCase` / `toUpperCase` are modelled by `Char.toLower` /
`Char.toUpper` (ASCII folding); every character class used by the engine is
ASCII, so the model coincides with the source on all inputs in play.
JavaScript objects used as tag maps are modelled by insertion-ordered
association lists with JavaScript assignment semantics (update in place if
the key exists, append otherwise).
-/

set_option maxRecDepth 4000

/-- Lowercase a whole string, ASCII model of JS `String.prototype.toLowerCase`.
JS folds non-ASCII letters too (e.g. a capital E-acute to its lowercase form)
while `Char.toLower` is the identity outside `A`-`Z`, so this model is exact
only on ASCII; every theorem whose conclusion depends on folding therefore
stays within ASCII inputs. -/
def lowerStr (s : String) : String :=
  String.mk (s.data.map Char.toLower)

/-- Character class for tag keys: `[a-zA-Z0-9_\-\/:\.]` (from `isValidKeyChar`). -/
def isValidKeyChar (c : Char) : Bool :=
  (('a' ≤ c && c ≤ 'z') || ('A' ≤ c && c ≤ 'Z') || ('0' ≤ c && c ≤ '9') ||
   c = '_' || c = '-' || c = '/' || c = ':' || c = '.')

/-- Character class for unquoted values: key characters plus `* ? !`
(from `isValidUnquotedValueChar` in the two newer variants). -/
def isValidUnquotedValueChar (c : Char) : Bool :=
  isValidKeyChar c || c = '*' || c = '?' || c = '!'

/-- ASCII whitespace, the model of the characters removed by JS `trim`.
JS `trim` additionally strips non-ASCII whitespace (U+00A0, U+1680, the Zs
range U+2000-U+200A, U+2028, U+2029, U+202F, U+205F, U+3000, U+FEFF), so
this model is exact only on ASCII; every theorem that relies on the
whitespace check therefore stays within ASCII inputs. -/
def isWsChar (c : Char) : Bool :=
  c = ' ' || c = '\t' || c = '\n' || c = '\x0d' || c = '\x0b' || c = '\x0c'

/-- Tag maps: JS objects modelled as insertion-ordered association lists. -/
abbrev Tags := List (String × String)

/-- Property lookup `t[k]`: first binding wins (JS objects never hold
duplicate keys, so the choice is immaterial on well-formed maps). -/
def tagsGet (t : Tags) (k : String) : Option String :=
  match t with
  | [] => none
  | (k', v) :: rest => if k' = k then some v else tagsGet rest k

/-- JS `hasOwnProperty`. -/
def tagsHas (t : Tags) (k : String) : Bool :=
  (tagsGet t k).isSome

/-- JS assignment `t[k] = v`: update in place if present, else append. -/
def tagsSet (t : Tags) (k v : String) : Tags :=
  match t with
  | [] => [(k, v)]
  | (k', v') :: rest => if k' = k then (k, v) :: rest else (k', v') :: tagsSet rest k v

/-- JS `delete t[k]`. -/
def tagsDelete (t : Tags) (k : String) : Tags :=
  t.filter (fun p => p.1 ≠ k)

/-- JS `Object.keys`. -/
def tagsKeys (t : Tags) : List String :=
  t.map Prod.fst

/-- Well-formedness of a tag map: no duplicate keys.  Every JS object
satisfies this; the association-list model must assume it where shadowed
bindings would otherwise differ from object semantics. -/
def tagsWF (t : Tags) : Prop :=
  (tagsKeys t).Nodup

instance (t : Tags) : Decidable (tagsWF t) := by
  unfold tagsWF
  infer_instance

/-- First-occurrence deduplication, the model of iterating a JS `Set`
built from a list (`new Set([...a, ...b])`). -/
def dedupAcc : List String → List String → List String
  | [], acc => acc.reverse
  | k :: rest, acc => if k ∈ acc then dedupAcc rest acc else dedupAcc rest (k :: acc)

/-- The set of keys of two tag maps, in JS `Set` iteration order
(`new Set([...Object.keys(a), ...Object.keys(b)])`). -/
def keyUnion (t1 t2 : Tags) : List String :=
  dedupAcc (tagsKeys t1 ++ tagsKeys t2) []

/-- Descriptor: a lowercase namespace string plus a tag map.  (`prefix` is a
Lean keyword, so the field is named `pfx`.) -/
structure TaggedUrn where
  pfx : String
  tags : Tags
deriving DecidableEq, Repr

/-- Error codes of `TaggedUrnError` (names follow the source constants;
`prefix` is a Lean keyword, hence the `Pfx` spellings). -/
inductive ErrCode where
  | invalidFormat
  | emptyTag
  | invalidChar
  | invalidTagFormat
  | missingPfx
  | duplicateKey
  | numericKey
  | unterminatedQuote
  | invalidEscape
  | emptyPfx
  | pfxMismatch
  | whitespaceInInput
deriving DecidableEq, Repr

instance {ε α : Type} [DecidableEq ε] [DecidableEq α] : DecidableEq (Except ε α) := fun x y =>
  match x, y with
  | .error e, .error f =>
      if h : e = f then isTrue (by rw [h]) else isFalse (fun hc => by cases hc; exact h rfl)
  | .error _, .ok _ => isFalse (fun hc => by cases hc)
  | .ok _, .error _ => isFalse (fun hc => by cases hc)
  | .ok a, .ok b =>
      if h : a = b then isTrue (by rw [h]) else isFalse (fun hc => by cases hc; exact h rfl)

/-- Per-key matching of an instance value against a pattern constraint,
translated from `valuesMatch` (identical in the two newer variants).
`none` is a key absent from the map, `some v` a stored value. -/
def valuesMatch (inst patt : Option String) : Bool :=
  if patt = none ∨ patt = some "?" then true
  else if inst = some "?" then true
  else if patt = some "!" then
    if inst = none then true
    else if inst = some "!" then true
    else false
  else if inst = some "!" then false
  else if patt = some "*" then
    if inst = none then false
    else true
  else if inst = none then false
  else if inst = some "*" then true
  else inst = patt

/-- Whole-descriptor matching over the union of the key sets, translated from
`TaggedUrn._checkMatch`; raises `pfxMismatch` on different namespaces. -/
def checkMatch (instTags : Tags) (instPfx : String) (pattTags : Tags) (pattPfx : String) :
    Except ErrCode Bool :=
  if instPfx ≠ pattPfx then .error .pfxMismatch
  else .ok ((keyUnion instTags pattTags).all fun k =>
    valuesMatch (tagsGet instTags k) (tagsGet pattTags k))

/-- Translation of `instance.conformsTo(pattern)`. -/
def TaggedUrn.conformsTo (i p : TaggedUrn) : Except ErrCode Bool :=
  checkMatch i.tags i.pfx p.tags p.pfx

/-- Translation of `pattern.accepts(instance)`. -/
def TaggedUrn.accepts (p i : TaggedUrn) : Except ErrCode Bool :=
  checkMatch i.tags i.pfx p.tags p.pfx

/-- The pure boolean core of matching under equal namespaces. -/
def matchesB (i p : TaggedUrn) : Bool :=
  (keyUnion i.tags p.tags).all fun k => valuesMatch (tagsGet i.tags k) (tagsGet p.tags k)

/-- The per-key truth table exactly as the claim states it: a pattern entry
that is absent or `?` always satisfies the key; `!` requires the instance
entry to be absent, `?` or `!`; `*` requires it to be `?`, `*` or an exact
value; an exact value `w` requires `?`, `*` or that exact value. -/
def specPerKey (instv pattv : Option String) : Bool :=
  match pattv with
  | none => true
  | some p =>
    if p = "?" then true
    else if p = "!" then
      decide (instv = none ∨ instv = some "?" ∨ instv = some "!")
    else if p = "*" then
      match instv with
      | none => false
      | some i => if i = "!" then false else true
    else
      match instv with
      | none => false
      | some i => i = "?" || i = "*" || i = p

theorem valuesMatch_eq_specPerKey (i p : Option String) :
    valuesMatch i p = specPerKey i p := by
  rcases p with _ | pv
  · simp [valuesMatch, specPerKey]
  · rcases i with _ | iv
    · unfold valuesMatch specPerKey
      split_ifs <;> simp_all
    · unfold valuesMatch specPerKey
      split_ifs <;> simp_all
      aesop

theorem mem_dedupAcc (l : List String) (k : String) :
    ∀ acc, k ∈ dedupAcc l acc ↔ k ∈ acc ∨ k ∈ l := by
  induction l with
  | nil => intro acc; simp [dedupAcc]
  | cons a t ih =>
      intro acc
      unfold dedupAcc
      by_cases ha : a ∈ acc
      · rw [if_pos ha, ih]
        constructor
        · rintro (h | h)
          · exact Or.inl h
          · exact Or.inr (List.mem_cons_of_mem a h)
        · rintro (h | h)
          · exact Or.inl h
          · rcases List.mem_cons.mp h with rfl | h
            · exact Or.inl ha
            · exact Or.inr h
      · rw [if_neg ha, ih]
        simp [List.mem_cons]
        tauto

theorem mem_keyUnion (t1 t2 : Tags) (k : String) :
    k ∈ keyUnion t1 t2 ↔ k ∈ tagsKeys t1 ∨ k ∈ tagsKeys t2 := by
  unfold keyUnion
  rw [mem_dedupAcc]
  simp [List.mem_append]

theorem keyUnion_mem_comm (t1 t2 : Tags) (k : String) :
    k ∈ keyUnion t1 t2 ↔ k ∈ keyUnion t2 t1 := by
  rw [mem_keyUnion, mem_keyUnion]
  tauto

/-- C1.  `conformsTo` (and its mirror `accepts`) is exactly the conjunction,
over every key in the union of the two tag maps, of the claim's per-key truth
table, and both raise `PREFIX_MISMATCH` when the namespaces differ.  The last
conjunct identifies the iterated key list with the union of the key sets. -/
theorem conformsTo_truth_table (I P : TaggedUrn) :
    I.conformsTo P =
      (if I.pfx = P.pfx
        then .ok ((keyUnion I.tags P.tags).all fun k =>
          specPerKey (tagsGet I.tags k) (tagsGet P.tags k))
        else .error .pfxMismatch)
    ∧ P.accepts I = I.conformsTo P
    ∧ (I.conformsTo P = .ok true ↔
        (I.pfx = P.pfx ∧ ∀ k, k ∈ tagsKeys I.tags ∨ k ∈ tagsKeys P.tags →
          specPerKey (tagsGet I.tags k) (tagsGet P.tags k) = true)) := by
  have hfun : (fun k => valuesMatch (tagsGet I.tags k) (tagsGet P.tags k)) =
      (fun k => specPerKey (tagsGet I.tags k) (tagsGet P.tags k)) := by
    funext k
    exact valuesMatch_eq_specPerKey _ _
  refine ⟨?_, rfl, ?_⟩
  · unfold TaggedUrn.conformsTo checkMatch
    rw [hfun]
    by_cases h : I.pfx = P.pfx <;> simp [h]
  · unfold TaggedUrn.conformsTo checkMatch
    rw [hfun]
    by_cases h : I.pfx = P.pfx
    · rw [if_neg (not_not_intro h)]
      simp only [Except.ok.injEq]
      constructor
      · intro hall
        exact ⟨h, fun k hk => List.all_eq_true.mp hall k ((mem_keyUnion _ _ _).mpr hk)⟩
      · rintro ⟨-, hall⟩
        exact List.all_eq_true.mpr fun k hk => hall k ((mem_keyUnion _ _ _).mp hk)
    · simp [h]

/-- Per-key compatibility of two pattern values, translated from
`valuesCompatible` in the middle variant. -/
def valuesCompatible (v1 v2 : Option String) : Bool :=
  if v1 = none ∨ v2 = none then true
  else if v1 = some "?" ∨ v2 = some "?" then true
  else if v1 = some "!" ∧ v2 = some "!" then true
  else if v1 = some "!" ∨ v2 = some "!" then false
  else if v1 = some "*" ∧ v2 = some "*" then true
  else if v1 = some "*" ∨ v2 = some "*" then true
  else v1 = v2

/-- The boolean core of `isCompatibleWith` under equal namespaces. -/
def compatB (a b : TaggedUrn) : Bool :=
  (keyUnion a.tags b.tags).all fun k =>
    valuesCompatible (tagsGet a.tags k) (tagsGet b.tags k)

/-- Translation of `isCompatibleWith` from the middle variant. -/
def TaggedUrn.isCompatibleWith (a b : TaggedUrn) : Except ErrCode Bool :=
  if a.pfx ≠ b.pfx then .error .pfxMismatch
  else .ok (compatB a b)

/-- Per-key body of the `isCompatibleWith` loop of the oldest variant
(`capns.js`): when both maps hold the key, the values must be equal or one
must be `*`; a key held by only one side is always fine. -/
def capnsPK (o1 o2 : Option String) : Bool :=
  match o1, o2 with
  | some v1, some v2 => if v1 ≠ "*" ∧ v2 ≠ "*" ∧ v1 ≠ v2 then false else true
  | _, _ => true

/-- Translation of `isCompatibleWith` from the oldest variant (`capns.js`): `?` and `!` get no
special handling there. -/
def Capns.isCompatibleWith (a b : TaggedUrn) : Except ErrCode Bool :=
  if a.pfx ≠ b.pfx then .error .pfxMismatch
  else .ok ((keyUnion a.tags b.tags).all fun k =>
    capnsPK (tagsGet a.tags k) (tagsGet b.tags k))

/-- Per-key compatibility exactly as the claim states it: `?` or absent is
compatible with anything; `!` only with `!`, absent or `?`; `*` with `*`,
any exact value, `?` or absent but not `!`; two exact values iff equal. -/
def specCompat (v1 v2 : Option String) : Bool :=
  match v1, v2 with
  | none, _ => true
  | _, none => true
  | some x, some y =>
    if x = "?" ∨ y = "?" then true
    else if x = "!" then y = "!"
    else if y = "!" then false
    else if x = "*" ∨ y = "*" then true
    else x = y

set_option maxHeartbeats 1600000 in
theorem valuesCompatible_eq_specCompat (v1 v2 : Option String) :
    valuesCompatible v1 v2 = specCompat v1 v2 := by
  rcases v1 with _ | x
  · simp [valuesCompatible, specCompat]
  rcases v2 with _ | y
  · simp [valuesCompatible, specCompat]
  unfold valuesCompatible specCompat
  simp only [Option.some.injEq, reduceCtorEq, false_or, or_false, false_and, if_false,
    if_neg (by exact fun h => Option.noConfusion h : ¬(some x = none))]
  split_ifs <;> simp_all

set_option maxHeartbeats 1600000 in
theorem valuesCompatible_symm (v1 v2 : Option String) :
    valuesCompatible v1 v2 = valuesCompatible v2 v1 := by
  rcases v1 with _ | x
  · rcases v2 with _ | y <;> simp [valuesCompatible]
  rcases v2 with _ | y
  · simp [valuesCompatible]
  unfold valuesCompatible
  simp only [Option.some.injEq, reduceCtorEq, false_or, or_false, false_and, if_false]
  split_ifs <;> simp_all [eq_comm]

theorem all_eq_all_of_mem_iff {l1 l2 : List String} {f : String → Bool}
    (h : ∀ k, k ∈ l1 ↔ k ∈ l2) : l1.all f = l2.all f := by
  cases h1 : l1.all f
  · cases h2 : l2.all f
    · rfl
    · exfalso
      rw [List.all_eq_false] at h1
      obtain ⟨k, hk, hfk⟩ := h1
      exact hfk (List.all_eq_true.mp h2 k ((h k).mp hk))
  · cases h2 : l2.all f
    · exfalso
      rw [List.all_eq_false] at h2
      obtain ⟨k, hk, hfk⟩ := h2
      exact hfk (List.all_eq_true.mp h1 k ((h k).mpr hk))
    · rfl

theorem compatB_symm (a b : TaggedUrn) : compatB a b = compatB b a := by
  unfold compatB
  have h1 : ∀ k, (fun k => valuesCompatible (tagsGet a.tags k) (tagsGet b.tags k)) k =
      (fun k => valuesCompatible (tagsGet b.tags k) (tagsGet a.tags k)) k := by
    intro k
    exact valuesCompatible_symm _ _
  rw [funext h1]
  exact all_eq_all_of_mem_iff (keyUnion_mem_comm a.tags b.tags)

theorem isCompatibleWith_symm (a b : TaggedUrn) :
    a.isCompatibleWith b = b.isCompatibleWith a := by
  unfold TaggedUrn.isCompatibleWith
  by_cases h : a.pfx = b.pfx
  · rw [if_neg (not_not_intro h), if_neg (not_not_intro h.symm), compatB_symm]
  · rw [if_pos h, if_pos (fun hc => h hc.symm)]

theorem capnsPK_symm (o1 o2 : Option String) : capnsPK o1 o2 = capnsPK o2 o1 := by
  rcases o1 with _ | x <;> rcases o2 with _ | y <;> simp only [capnsPK]
  split_ifs <;> simp_all [eq_comm]

theorem capns_isCompatibleWith_symm (a b : TaggedUrn) :
    Capns.isCompatibleWith a b = Capns.isCompatibleWith b a := by
  unfold Capns.isCompatibleWith
  by_cases h : a.pfx = b.pfx
  · rw [if_neg (not_not_intro h), if_neg (not_not_intro h.symm)]
    have h1 : (fun k => capnsPK (tagsGet a.tags k) (tagsGet b.tags k)) =
        (fun k => capnsPK (tagsGet b.tags k) (tagsGet a.tags k)) := by
      funext k
      exact capnsPK_symm _ _
    rw [h1]
    exact congrArg Except.ok (all_eq_all_of_mem_iff (keyUnion_mem_comm a.tags b.tags))
  · rw [if_pos h, if_pos (fun hc => h hc.symm)]

/-- C5 (amended).  The middle variant's `isCompatibleWith` is exactly the
claim's symmetric per-key relation over the union of the key sets, raising
`PREFIX_MISMATCH` on unequal namespaces; the `capns.js` variant is also
symmetric but uses its own per-key rule (`capnsPK`). -/
theorem isCompatibleWith_spec (a b : TaggedUrn) :
    a.isCompatibleWith b =
      (if a.pfx = b.pfx
        then .ok ((keyUnion a.tags b.tags).all fun k =>
          specCompat (tagsGet a.tags k) (tagsGet b.tags k))
        else .error .pfxMismatch)
    ∧ a.isCompatibleWith b = b.isCompatibleWith a
    ∧ Capns.isCompatibleWith a b = Capns.isCompatibleWith b a := by
  refine ⟨?_, isCompatibleWith_symm a b, capns_isCompatibleWith_symm a b⟩
  unfold TaggedUrn.isCompatibleWith compatB
  have h1 : (fun k => valuesCompatible (tagsGet a.tags k) (tagsGet b.tags k)) =
      (fun k => specCompat (tagsGet a.tags k) (tagsGet b.tags k)) := by
    funext k
    exact valuesCompatible_eq_specCompat _ _
  rw [h1]
  by_cases h : a.pfx = b.pfx
  · rw [if_neg (not_not_intro h), if_pos h]
  · rw [if_pos h, if_neg h]

/-- C5 counterexample.  On the `capns.js` variant cited by the claim, a `?`
constraint is not compatible with a differing exact value, although the
claim's truth table says `?` is compatible with anything. -/
theorem capns_isCompatibleWith_cex :
    Capns.isCompatibleWith ⟨"cap", [("k", "?")]⟩ ⟨"cap", [("k", "v")]⟩ = .ok false
    ∧ specCompat (some "?") (some "v") = true := by
  constructor
  · decide
  · decide

/-- Graded specificity score of the two newer variants: `?` adds 0, `!`
adds 1, `*` adds 2, an exact value adds 3. -/
def TaggedUrn.specificity (u : TaggedUrn) : Nat :=
  u.tags.foldl (fun score kv =>
    if kv.2 = "?" then score + 0
    else if kv.2 = "!" then score + 1
    else if kv.2 = "*" then score + 2
    else score + 3) 0

/-- Tie-breaking tuple `[exact, mustHaveAny, mustNot]` of the two newer
variants. -/
def TaggedUrn.specificityTuple (u : TaggedUrn) : Nat × Nat × Nat :=
  u.tags.foldl (fun t kv =>
    if kv.2 = "?" then t
    else if kv.2 = "!" then (t.1, t.2.1, t.2.2 + 1)
    else if kv.2 = "*" then (t.1, t.2.1 + 1, t.2.2)
    else (t.1 + 1, t.2.1, t.2.2)) (0, 0, 0)

/-- Specificity of the oldest variant (`capns.js`): the number of tags whose
value is not `*`. -/
def Capns.specificity (u : TaggedUrn) : Nat :=
  (u.tags.filter fun kv => kv.2 ≠ "*").length

/-- Weight of a stored tag value exactly as the claim states it. -/
def specWeight (v : String) : Nat :=
  if v = "?" then 0 else if v = "!" then 1 else if v = "*" then 2 else 3

/-- A stored value that is an exact value (none of the three sentinels). -/
def isExactVal (v : String) : Bool :=
  if v = "?" ∨ v = "!" ∨ v = "*" then false else true

theorem specificity_foldl (l : Tags) : ∀ n : Nat,
    (l.foldl (fun score kv =>
      if kv.2 = "?" then score + 0
      else if kv.2 = "!" then score + 1
      else if kv.2 = "*" then score + 2
      else score + 3) n) = n + (l.map fun kv => specWeight kv.2).sum := by
  induction l with
  | nil => intro n; simp
  | cons a t ih =>
      intro n
      simp only [List.foldl_cons, List.map_cons, List.sum_cons]
      rw [ih]
      unfold specWeight
      split_ifs <;> omega

set_option maxHeartbeats 1600000 in
theorem specificityTuple_foldl (l : Tags) : ∀ t : Nat × Nat × Nat,
    (l.foldl (fun t kv =>
      if kv.2 = "?" then t
      else if kv.2 = "!" then (t.1, t.2.1, t.2.2 + 1)
      else if kv.2 = "*" then (t.1, t.2.1 + 1, t.2.2)
      else (t.1 + 1, t.2.1, t.2.2)) t) =
    (t.1 + l.countP (fun kv => isExactVal kv.2),
     t.2.1 + l.countP (fun kv => decide (kv.2 = "*")),
     t.2.2 + l.countP (fun kv => decide (kv.2 = "!"))) := by
  induction l with
  | nil => intro t; simp
  | cons a tl ih =>
      intro t
      simp only [List.foldl_cons, List.countP_cons]
      rw [ih]
      unfold isExactVal
      simp only [Prod.mk.injEq, decide_eq_true_eq]
      split_ifs <;> simp_all <;> omega

/-- C3 (amended).  In the two newer variants `specificity()` is the weighted
sum of the claim (exact 3, `*` 2, `!` 1, `?` 0) and `specificityTuple()` is
the triple of exact / `*` / `!` counts. -/
theorem specificity_spec (u : TaggedUrn) :
    u.specificity = (u.tags.map fun kv => specWeight kv.2).sum
    ∧ u.specificityTuple =
      (u.tags.countP (fun kv => isExactVal kv.2),
       u.tags.countP (fun kv => decide (kv.2 = "*")),
       u.tags.countP (fun kv => decide (kv.2 = "!"))) := by
  constructor
  · rw [TaggedUrn.specificity, specificity_foldl]
    omega
  · rw [TaggedUrn.specificityTuple, specificityTuple_foldl]
    simp

theorem tagsGet_isSome_iff (t : Tags) (k : String) :
    (tagsGet t k).isSome ↔ k ∈ tagsKeys t := by
  induction t with
  | nil => simp [tagsGet, tagsKeys]
  | cons a rest ih =>
      unfold tagsGet
      by_cases h : a.1 = k
      · simp [h, tagsKeys]
      · rw [if_neg h]
        simp only [tagsKeys, List.map_cons, List.mem_cons]
        rw [ih]
        simp [tagsKeys]
        tauto

theorem tagsGet_some_mem {t : Tags} {k v : String} (h : tagsGet t k = some v) :
    (k, v) ∈ t := by
  induction t with
  | nil => simp [tagsGet] at h
  | cons a rest ih =>
      unfold tagsGet at h
      by_cases ha : a.1 = k
      · rw [if_pos ha] at h
        obtain ⟨a1, a2⟩ := a
        rw [Option.some.injEq] at h
        simp only at ha
        rw [← ha, ← h]
        exact List.mem_cons_self _ _
      · rw [if_neg ha] at h
        exact List.mem_cons_of_mem a (ih h)

theorem tagsGet_of_mem_wf {t : Tags} {k v : String} (hw : tagsWF t)
    (h : (k, v) ∈ t) : tagsGet t k = some v := by
  induction t with
  | nil => simp at h
  | cons a rest ih =>
      unfold tagsWF tagsKeys at hw
      simp only [List.map_cons, List.nodup_cons] at hw
      rcases List.mem_cons.mp h with rfl | hmem
      · simp [tagsGet]
      · unfold tagsGet
        by_cases ha : a.1 = k
        · exfalso
          apply hw.1
          rw [ha]
          exact List.mem_map_of_mem Prod.fst hmem
        · rw [if_neg ha]
          exact ih hw.2 hmem

theorem valuesMatch_refl (v : Option String) : valuesMatch v v = true := by
  unfold valuesMatch
  split_ifs <;> simp_all

/-- Modelled from the spec: the tag-map identity test behind `isEquivalent`
("the two tag maps are identical: same keys, same values"); the source of
`isEquivalent` is absent from `src/`, which holds only its test suite. -/
def tagsEquivB (t1 t2 : Tags) : Bool :=
  t1.all (fun kv => decide (tagsGet t2 kv.1 = some kv.2)) &&
  t2.all (fun kv => decide (tagsGet t1 kv.1 = some kv.2))

/-- Modelled from the spec: `isEquivalent(a,b)` holds iff the two tag maps
are identical under the same namespace, raising `PREFIX_MISMATCH` otherwise;
the implementation is absent from `src/` (only its tests are there). -/
def TaggedUrn.isEquivalent (a b : TaggedUrn) : Except ErrCode Bool :=
  if a.pfx ≠ b.pfx then .error .pfxMismatch
  else .ok (tagsEquivB a.tags b.tags)

/-- Modelled from the spec: `isComparable(a,b)` holds iff `a.conformsTo(b)`
or `b.conformsTo(a)`, raising `PREFIX_MISMATCH` on unequal namespaces; the
implementation is absent from `src/` (only its tests are there). -/
def TaggedUrn.isComparable (a b : TaggedUrn) : Except ErrCode Bool :=
  if a.pfx ≠ b.pfx then .error .pfxMismatch
  else .ok (matchesB a b || matchesB b a)

/-- C6.  On well-formed tag maps, `isEquivalent` answers pointwise equality
of the two maps, `isComparable` answers conformance in either direction,
equivalence implies comparability, and both raise `PREFIX_MISMATCH` on
unequal namespaces. -/
theorem isEquivalent_isComparable_spec (a b : TaggedUrn)
    (ha : tagsWF a.tags) (hb : tagsWF b.tags) :
    (a.isEquivalent b = .ok true ↔
      (a.pfx = b.pfx ∧ ∀ k, tagsGet a.tags k = tagsGet b.tags k))
    ∧ (a.isComparable b = .ok true ↔
      (a.conformsTo b = .ok true ∨ b.conformsTo a = .ok true))
    ∧ (a.pfx ≠ b.pfx →
        a.isEquivalent b = .error .pfxMismatch ∧ a.isComparable b = .error .pfxMismatch)
    ∧ (a.isEquivalent b = .ok true → a.isComparable b = .ok true) := by
  have hequiv : a.isEquivalent b = .ok true ↔
      (a.pfx = b.pfx ∧ ∀ k, tagsGet a.tags k = tagsGet b.tags k) := by
    unfold TaggedUrn.isEquivalent
    by_cases h : a.pfx = b.pfx
    · rw [if_neg (not_not_intro h)]
      simp only [Except.ok.injEq]
      unfold tagsEquivB
      rw [Bool.and_eq_true, List.all_eq_true, List.all_eq_true]
      constructor
      · rintro ⟨h1, h2⟩
        refine ⟨h, fun k => ?_⟩
        cases hg : tagsGet a.tags k with
        | some v =>
            have h3 := h1 (k, v) (tagsGet_some_mem hg)
            simp only [decide_eq_true_eq] at h3
            exact h3.symm
        | none =>
            cases hg2 : tagsGet b.tags k with
            | none => rfl
            | some w =>
                have := h2 (k, w) (tagsGet_some_mem hg2)
                simp only [decide_eq_true_eq] at this
                rw [hg] at this
                exact this
      · rintro ⟨-, hall⟩
        constructor
        · intro kv hkv
          simp only [decide_eq_true_eq]
          rw [← hall kv.1]
          exact tagsGet_of_mem_wf ha (by simpa using hkv)
        · intro kv hkv
          simp only [decide_eq_true_eq]
          rw [hall kv.1]
          exact tagsGet_of_mem_wf hb (by simpa using hkv)
    · rw [if_pos h]
      simp only [reduceCtorEq, false_iff, not_and]
      intro hc
      exact absurd hc h
  have hcomp : a.isComparable b = .ok true ↔
      (a.conformsTo b = .ok true ∨ b.conformsTo a = .ok true) := by
    unfold TaggedUrn.isComparable TaggedUrn.conformsTo checkMatch
    by_cases h : a.pfx = b.pfx
    · rw [if_neg (not_not_intro h), if_neg (not_not_intro h), if_neg (not_not_intro h.symm)]
      simp only [Except.ok.injEq, Bool.or_eq_true]
      rfl
    · rw [if_pos h, if_pos h, if_pos (fun hc => h hc.symm)]
      simp
  refine ⟨hequiv, hcomp, ?_, ?_⟩
  · intro h
    unfold TaggedUrn.isEquivalent TaggedUrn.isComparable
    rw [if_pos h, if_pos h]
    exact ⟨rfl, rfl⟩
  · intro h
    obtain ⟨hp, hall⟩ := hequiv.mp h
    apply hcomp.mpr
    left
    unfold TaggedUrn.conformsTo checkMatch
    rw [if_neg (not_not_intro hp)]
    refine congrArg Except.ok (List.all_eq_true.mpr fun k _ => ?_)
    rw [hall k]
    exact valuesMatch_refl _

/-- C6 witness: a concrete pair of equivalent descriptors is comparable. -/
theorem isEquivalent_isComparable_witness :
    (TaggedUrn.mk "cap" [("k", "v")]).isComparable (TaggedUrn.mk "cap" [("k", "v")]) = .ok true :=
  (isEquivalent_isComparable_spec (TaggedUrn.mk "cap" [("k", "v")])
    (TaggedUrn.mk "cap" [("k", "v")]) (by decide) (by decide)).2.2.2 (by decide)

/-- C3 counterexample.  On the `capns.js` variant cited by the claim, a
single exact-valued tag scores 1, not the claimed weight 3 (and that variant
has no `specificityTuple` at all). -/
theorem capns_specificity_cex :
    Capns.specificity ⟨"cap", [("k", "v")]⟩ = 1
    ∧ ((⟨"cap", [("k", "v")]⟩ : TaggedUrn).tags.map fun kv => specWeight kv.2).sum = 3 := by
  constructor
  · decide
  · decide

/-- Parser states of the character state machine. -/
inductive PState where
  | expectingKey
  | inKey
  | expectingValue
  | inUnquotedValue
  | inQuotedValue
  | inQuotedValueEscape
  | expectingSemiOrEnd
deriving DecidableEq, Repr

/-- The regex test `/^\d+$/` on an accumulated key. -/
def isPurelyNumeric (l : List Char) : Bool :=
  !l.isEmpty && l.all fun c => c.isDigit

/-- Tag completion, translated from the `finishTag` closure of `fromString`:
empty key or value, duplicate key and purely numeric key are rejected, then
the binding is appended to the map. -/
def finishTag (tags : Tags) (key val : List Char) : Except ErrCode Tags :=
  if key = [] then .error .emptyTag
  else if val = [] then .error .emptyTag
  else if tagsHas tags (String.mk key) then .error .duplicateKey
  else if isPurelyNumeric key then .error .numericKey
  else .ok (tagsSet tags (String.mk key) (String.mk val))

/-- The character loop of `fromString` (newest variant), one constructor per
parser state; the empty-list case is the end-of-input switch.  Keys and
unquoted values are lowercased as they accumulate; quoted values are kept
verbatim. -/
def parseTags : List Char → PState → List Char → List Char → Tags → Except ErrCode Tags
  | [], state, key, val, tags =>
    match state with
    | .inUnquotedValue => finishTag tags key val
    | .expectingSemiOrEnd => finishTag tags key val
    | .expectingKey => .ok tags
    | .inQuotedValue => .error .unterminatedQuote
    | .inQuotedValueEscape => .error .unterminatedQuote
    | .inKey =>
        if key = [] then .error .emptyTag
        else finishTag tags key ['*']
    | .expectingValue => .error .emptyTag
  | c :: rest, state, key, val, tags =>
    match state with
    | .expectingKey =>
        if c = ';' then parseTags rest .expectingKey key val tags
        else if isValidKeyChar c then parseTags rest .inKey (key ++ [c.toLower]) val tags
        else .error .invalidChar
    | .inKey =>
        if c = '=' then
          if key = [] then .error .emptyTag
          else parseTags rest .expectingValue key val tags
        else if c = ';' then
          if key = [] then .error .emptyTag
          else
            match finishTag tags key ['*'] with
            | .error e => .error e
            | .ok tags' => parseTags rest .expectingKey [] [] tags'
        else if isValidKeyChar c then parseTags rest .inKey (key ++ [c.toLower]) val tags
        else .error .invalidChar
    | .expectingValue =>
        if c = '"' then parseTags rest .inQuotedValue key val tags
        else if c = ';' then .error .emptyTag
        else if isValidUnquotedValueChar c then
          parseTags rest .inUnquotedValue key (val ++ [c.toLower]) tags
        else .error .invalidChar
    | .inUnquotedValue =>
        if c = ';' then
          match finishTag tags key val with
          | .error e => .error e
          | .ok tags' => parseTags rest .expectingKey [] [] tags'
        else if isValidUnquotedValueChar c then
          parseTags rest .inUnquotedValue key (val ++ [c.toLower]) tags
        else .error .invalidChar
    | .inQuotedValue =>
        if c = '"' then parseTags rest .expectingSemiOrEnd key val tags
        else if c = '\\' then parseTags rest .inQuotedValueEscape key val tags
        else parseTags rest .inQuotedValue key (val ++ [c]) tags
    | .inQuotedValueEscape =>
        if c = '"' ∨ c = '\\' then parseTags rest .inQuotedValue key (val ++ [c]) tags
        else .error .invalidEscape
    | .expectingSemiOrEnd =>
        if c = ';' then
          match finishTag tags key val with
          | .error e => .error e
          | .ok tags' => parseTags rest .expectingKey [] [] tags'
        else .error .invalidChar

/-- Position of the first occurrence of a separator: `indexOf` plus the two
`slice` calls, as a single split. -/
def splitFirst (sep : Char) : List Char → Option (List Char × List Char)
  | [] => none
  | c :: rest =>
      if c = sep then some ([], rest)
      else (splitFirst sep rest).map fun p => (c :: p.1, p.2)

/-- Does `s.trim()` differ from `s`: some leading or trailing whitespace. -/
def hasEdgeWs (l : List Char) : Bool :=
  (match l.head? with | some c => isWsChar c | none => false) ||
  (match l.getLast? with | some c => isWsChar c | none => false)

/-- Translation of `TaggedUrn.fromString` (newest variant) over the character list of
the input: empty-input and whitespace checks, split at the first `:`, the
empty-tag-part shortcut, then the state machine. -/
def fromStringAux (l : List Char) : Except ErrCode TaggedUrn :=
  if l = [] then .error .invalidFormat
  else if hasEdgeWs l then .error .whitespaceInInput
  else
    match splitFirst ':' l with
    | none => .error .missingPfx
    | some ([], _) => .error .emptyPfx
    | some (p, tagsPart) =>
        if tagsPart = [] ∨ tagsPart = [';'] then
          .ok ⟨String.mk (p.map Char.toLower), []⟩
        else
          match parseTags tagsPart .expectingKey [] [] [] with
          | .error e => .error e
          | .ok tags => .ok ⟨String.mk (p.map Char.toLower), tags⟩

/-- The same parser entry point on strings. -/
def TaggedUrn.fromString (s : String) : Except ErrCode TaggedUrn :=
  fromStringAux s.data

/-- Translation of `getTag`: lookup with the key lowercased. -/
def TaggedUrn.getTag (u : TaggedUrn) (key : String) : Option String :=
  tagsGet u.tags (lowerStr key)

/-- Translation of `needsQuoting`: the serializer quotes a value iff it contains one of
`; = " \`, a space, or an uppercase letter (a character whose upper- and
lowercase forms differ and that equals its uppercase form). -/
def needsQuoting (v : String) : Bool :=
  v.data.any fun c =>
    c = ';' || c = '=' || c = '"' || c = '\\' || c = ' ' ||
    (c.toUpper ≠ c.toLower && c = c.toUpper)

/-- Translation of `quoteValue`: wrap in double quotes, escaping `"` and `\`. -/
def quoteValue (v : String) : String :=
  String.mk ('"' :: (v.data.foldr (fun c acc =>
    if c = '"' ∨ c = '\\' then '\\' :: c :: acc else c :: acc) ['"']))

/-- Insertion into a sorted key list, modelling `Array.prototype.sort`'s
ascending code-unit order on the (unique) keys. -/
def insertSorted (k : String) : List String → List String
  | [] => [k]
  | x :: rest =>
      match compare k x with
      | .gt => x :: insertSorted k rest
      | _ => k :: x :: rest

/-- Ascending sort of the key list. -/
def sortKeys (l : List String) : List String :=
  l.foldr insertSorted []

/-- Per-tag rendering of `toString` (newest variant): `*` renders as the bare
key, `?` and `!` explicitly, exact values with smart quoting.  The key is
always drawn from the map, so the `none` branch is unreachable. -/
def renderTag (tags : Tags) (key : String) : String :=
  match tagsGet tags key with
  | some v =>
      if v = "*" then key
      else if v = "?" then key ++ "=?"
      else if v = "!" then key ++ "=!"
      else if needsQuoting v then key ++ "=" ++ quoteValue v
      else key ++ "=" ++ v
  | none => ""

/-- Translation of `TaggedUrn.toString` (newest variant): sorted keys, smart quoting,
no trailing separator. -/
def TaggedUrn.toString (u : TaggedUrn) : String :=
  if u.tags = [] then u.pfx ++ ":"
  else u.pfx ++ ":" ++ String.intercalate ";" ((sortKeys (tagsKeys u.tags)).map (renderTag u.tags))

/-- C2.  The round-trip law fails: the quoted value `#` parses, but the
serializer leaves `#` unquoted (`needsQuoting` misses every character that is
illegal unquoted yet not in its blacklist), and the serialized form is then
rejected by the parser with `INVALID_CHARACTER`. -/
theorem roundtrip_failure :
    TaggedUrn.fromString "cap:k=\"#\"" = .ok ⟨"cap", [("k", "#")]⟩
    ∧ needsQuoting "#" = false
    ∧ TaggedUrn.toString ⟨"cap", [("k", "#")]⟩ = "cap:k=#"
    ∧ TaggedUrn.fromString "cap:k=#" = .error .invalidChar := by
  refine ⟨by decide, by decide, by decide, by decide⟩

theorem wsChar_not_key {c : Char} (h : isWsChar c = true) : isValidKeyChar c = false := by
  unfold isWsChar at h
  simp only [Bool.or_eq_true, decide_eq_true_eq] at h
  rcases h with ((((rfl | rfl) | rfl) | rfl) | rfl) | rfl <;> decide

theorem keyChar_not_ws {c : Char} (h : isValidKeyChar c = true) : isWsChar c = false := by
  cases hw : isWsChar c with
  | false => rfl
  | true => rw [wsChar_not_key hw] at h; cases h

theorem splitFirst_of_not_mem (rest : List Char) :
    ∀ {p : List Char}, ':' ∉ p → splitFirst ':' (p ++ ':' :: rest) = some (p, rest) := by
  intro p
  induction p with
  | nil => intro h; simp [splitFirst]
  | cons a t ih =>
      intro h
      have ha : ¬a = ':' := fun hc => h (by rw [hc]; exact List.mem_cons_self _ _)
      have h2 : ':' ∉ t := fun hc => h (List.mem_cons_of_mem _ hc)
      simp only [List.cons_append, splitFirst, List.append_eq]
      rw [if_neg ha, ih h2]
      rfl

/-- C8 counterexample.  The parser accepts a prefix containing `@`, a
character outside the key class; the claim says it must reject it. -/
theorem pfx_validation_cex :
    TaggedUrn.fromString "a@b:x" = .ok ⟨"a@b", [("x", "*")]⟩ := by
  decide

/-- C8 (amended).  The parser performs no character validation on the text
before the first `:` at all: any nonempty ASCII character list `c :: p` free
of `:` (and not starting with whitespace) is accepted as the prefix,
lowercased, whatever characters it contains — key-class characters play no
role.  The statement is restricted to ASCII because that is where `isWsChar`
and `Char.toLower` coincide exactly with JS `trim` and `toLowerCase`; on a
prefix headed by non-ASCII whitespace (e.g. U+00A0) the source throws
`WHITESPACE_IN_INPUT`, and on non-ASCII uppercase letters the stored prefix
would be folded differently, so those inputs are outside this theorem. -/
theorem fromString_accepts_any_pfx (c : Char) (p : List Char)
    (_hascii : ∀ d ∈ c :: p, d.toNat < 128)
    (hns : ':' ∉ c :: p) (hws : isWsChar c = false) :
    fromStringAux ((c :: p) ++ [':', 'x']) =
      .ok ⟨String.mk ((c :: p).map Char.toLower), [("x", "*")]⟩ := by
  have hsplit : splitFirst ':' ((c :: p) ++ ':' :: ['x']) = some (c :: p, ['x']) :=
    splitFirst_of_not_mem ['x'] hns
  have hlast : ((c :: p) ++ [':', 'x']).getLast? = some 'x' := by
    rw [List.getLast?_append_of_ne_nil _ (by simp)]
    rfl
  unfold fromStringAux
  rw [if_neg (by simp)]
  have hedge : hasEdgeWs ((c :: p) ++ [':', 'x']) = false := by
    unfold hasEdgeWs
    rw [hlast, List.head?_append_of_ne_nil _ (by simp)]
    simp [hws]
    decide
  rw [if_neg (by rw [hedge]; exact Bool.false_ne_true)]
  rw [show (c :: p) ++ [':', 'x'] = (c :: p) ++ ':' :: ['x'] from rfl, hsplit]
  have hrun : parseTags ['x'] .expectingKey [] [] [] = .ok [("x", "*")] := by decide
  simp only [hrun]
  rfl

/-- C8 witness: the amended statement at the concrete prefix text `a@b`. -/
theorem fromString_accepts_any_pfx_witness :
    fromStringAux (['a', '@', 'b'] ++ [':', 'x']) =
      .ok ⟨String.mk (['a', '@', 'b'].map Char.toLower), [("x", "*")]⟩ :=
  fromString_accepts_any_pfx 'a' ['@', 'b'] (by decide) (by decide) (by decide)

theorem parseTags_inKey_run (cs : List Char) :
    ∀ acc : List Char, (∀ c ∈ cs, isValidKeyChar c = true) →
      parseTags cs .inKey acc [] [] =
        parseTags [] .inKey (acc ++ cs.map Char.toLower) [] [] := by
  induction cs with
  | nil => intro acc h; simp
  | cons c rest ih =>
      intro acc h
      have hc : isValidKeyChar c = true := h c (List.mem_cons_self _ _)
      have hne1 : ¬c = '=' := fun hc2 => by rw [hc2] at hc; cases hc
      have hne2 : ¬c = ';' := fun hc2 => by rw [hc2] at hc; cases hc
      show (if c = '=' then _ else if c = ';' then _
        else if isValidKeyChar c then parseTags rest .inKey (acc ++ [c.toLower]) [] []
        else .error .invalidChar) = _
      rw [if_neg hne1, if_neg hne2, if_pos hc,
        ih (acc ++ [c.toLower]) (fun d hd => h d (List.mem_cons_of_mem _ hd))]
      simp

/-- C4.  A legal key (nonempty, made of lowercase key characters, not purely
numeric) written bare — no `=` anywhere before end of input — parses to the
stored value `*`; any tag stored as `*` is rendered as the bare key; and the
claim's concrete example `cap:ext` round-trips both ways. -/
theorem bare_key_is_wildcard (k : String)
    (h1 : k.data ≠ [])
    (h2 : ∀ c ∈ k.data, isValidKeyChar c = true)
    (h3 : ¬∀ c ∈ k.data, c.isDigit = true)
    (h4 : ∀ c ∈ k.data, Char.toLower c = c) :
    TaggedUrn.fromString ("cap:" ++ k) = .ok ⟨"cap", [(k, "*")]⟩
    ∧ (TaggedUrn.mk "cap" [(k, "*")]).getTag k = some "*"
    ∧ (∀ (t : Tags) (key : String), tagsGet t key = some "*" → renderTag t key = key)
    ∧ TaggedUrn.fromString "cap:ext" = .ok ⟨"cap", [("ext", "*")]⟩
    ∧ TaggedUrn.toString ⟨"cap", [("ext", "*")]⟩ = "cap:ext" := by
  have hmap : k.data.map Char.toLower = k.data :=
    (List.map_congr_left h4).trans (List.map_id _)
  have hlowk : lowerStr k = k := by
    unfold lowerStr
    rw [hmap]
  have hsemi : ¬k.data = [';'] := by
    intro hc
    have := h2 ';' (by rw [hc]; exact List.mem_cons_self _ _)
    cases this
  have hdigit : (k.data.all fun c => c.isDigit) = false := by
    cases hall : k.data.all fun c => c.isDigit with
    | false => rfl
    | true => exact absurd (fun c hc => List.all_eq_true.mp hall c hc) h3
  refine ⟨?_, ?_, ?_, by decide, by decide⟩
  · obtain ⟨l⟩ := k
    simp only [String.data] at h1 h2 hmap hdigit hsemi
    show fromStringAux ("cap:" ++ String.mk l).data = _
    have hdata : ("cap:" ++ String.mk l).data = ['c', 'a', 'p'] ++ ':' :: l := rfl
    rw [hdata]
    have hlast : (['c', 'a', 'p'] ++ ':' :: l).getLast? = l.getLast? := by
      rw [show (':' :: l) = [':'] ++ l from rfl, ← List.append_assoc]
      exact List.getLast?_append_of_ne_nil _ h1
    have hlastws : (match (['c', 'a', 'p'] ++ ':' :: l).getLast? with
        | some c => isWsChar c | none => false) = false := by
      rw [hlast]
      cases hgl : l.getLast? with
      | none => rfl
      | some d =>
          have hd : d ∈ l := by
            obtain ⟨hne, hdl⟩ := List.mem_getLast?_eq_getLast hgl
            rw [hdl]
            exact List.getLast_mem hne
          exact keyChar_not_ws (h2 d hd)
    unfold fromStringAux
    rw [if_neg (by simp)]
    have hedge : hasEdgeWs (['c', 'a', 'p'] ++ ':' :: l) = false := by
      unfold hasEdgeWs
      rw [hlastws]
      rfl
    rw [if_neg (by rw [hedge]; exact Bool.false_ne_true)]
    rw [splitFirst_of_not_mem l (by decide)]
    simp only
    rw [if_neg (by rw [not_or]; exact ⟨h1, hsemi⟩)]
    rcases l with _ | ⟨c0, cs⟩
    · exact absurd rfl h1
    have hc0 : isValidKeyChar c0 = true := h2 c0 (List.mem_cons_self _ _)
    have hc0s : ¬c0 = ';' := fun hc => by rw [hc] at hc0; cases hc0
    show ((match (if c0 = ';' then parseTags cs .expectingKey [] [] []
        else if isValidKeyChar c0 then parseTags cs .inKey ([] ++ [c0.toLower]) [] []
        else .error .invalidChar) with
      | .error e => Except.error e
      | .ok tags =>
          Except.ok (TaggedUrn.mk (String.mk (['c', 'a', 'p'].map Char.toLower)) tags)) :
        Except ErrCode TaggedUrn) = _
    rw [if_neg hc0s, if_pos hc0,
      parseTags_inKey_run cs ([] ++ [c0.toLower]) (fun d hd => h2 d (List.mem_cons_of_mem _ hd))]
    have hkey : ([] ++ [c0.toLower]) ++ cs.map Char.toLower = c0 :: cs := by
      simpa using hmap
    rw [hkey]
    show ((match (if (c0 :: cs : List Char) = [] then Except.error ErrCode.emptyTag
        else finishTag [] (c0 :: cs) ['*']) with
      | .error e => Except.error e
      | .ok tags =>
          Except.ok (TaggedUrn.mk (String.mk (['c', 'a', 'p'].map Char.toLower)) tags)) :
        Except ErrCode TaggedUrn) = _
    rw [if_neg (by simp)]
    unfold finishTag
    rw [if_neg (by simp), if_neg (by simp)]
    have hhas : tagsHas [] (String.mk (c0 :: cs)) = false := rfl
    rw [hhas]
    have hnum : isPurelyNumeric (c0 :: cs) = false := by
      unfold isPurelyNumeric
      rw [hdigit, Bool.and_false]
    rw [hnum]
    simp only [Bool.false_eq_true, if_false]
    rfl
  · show tagsGet [(k, "*")] (lowerStr k) = some "*"
    rw [hlowk]
    simp [tagsGet]
  · intro t key h
    unfold renderTag
    rw [h]
    simp

/-- C4 witness: the concrete legal key `ext`. -/
theorem bare_key_is_wildcard_witness :
    TaggedUrn.fromString ("cap:" ++ "ext") = .ok ⟨"cap", [("ext", "*")]⟩ :=
  (bare_key_is_wildcard "ext" (by decide) (by decide) (by decide) (by decide)).1

/-- Inner loop of the middle variant's `areCompatible`: scan the second set
for a partner compatible with `u1`, propagating any thrown error. -/
def anyCompat (u1 : TaggedUrn) : List TaggedUrn → Except ErrCode Bool
  | [] => .ok false
  | u2 :: rest =>
      match u1.isCompatibleWith u2 with
      | .error e => .error e
      | .ok true => .ok true
      | .ok false => anyCompat u1 rest

/-- Translation of `UrnMatcher.areCompatible` (middle variant): true iff some cross
pair is compatible in the `isCompatibleWith` sense. -/
def UrnMatcher.areCompatible : List TaggedUrn → List TaggedUrn → Except ErrCode Bool
  | [], _ => .ok false
  | u1 :: rest1, urns2 =>
      match anyCompat u1 urns2 with
      | .error e => .error e
      | .ok true => .ok true
      | .ok false => UrnMatcher.areCompatible rest1 urns2

/-- Pair test of the newest variant's `areCompatible`:
`u1.accepts(u2) || u2.accepts(u1)` with JS short-circuiting. -/
def pairOk (u1 u2 : TaggedUrn) : Except ErrCode Bool :=
  match u1.accepts u2 with
  | .error e => .error e
  | .ok true => .ok true
  | .ok false => u2.accepts u1

/-- Inner loop of the newest variant's `areCompatible`. -/
def anyPairOk (u1 : TaggedUrn) : List TaggedUrn → Except ErrCode Bool
  | [] => .ok false
  | u2 :: rest =>
      match pairOk u1 u2 with
      | .error e => .error e
      | .ok true => .ok true
      | .ok false => anyPairOk u1 rest

/-- Translation of `UrnMatcher.areCompatible` (newest variant): true iff some cross
pair is related by `accepts` in either direction. -/
def UrnMatcher.areCompatibleV4 : List TaggedUrn → List TaggedUrn → Except ErrCode Bool
  | [], _ => .ok false
  | u1 :: rest1, urns2 =>
      match anyPairOk u1 urns2 with
      | .error e => .error e
      | .ok true => .ok true
      | .ok false => UrnMatcher.areCompatibleV4 rest1 urns2

theorem isCompatibleWith_ok {a b : TaggedUrn} (h : a.pfx = b.pfx) :
    a.isCompatibleWith b = .ok (compatB a b) := by
  unfold TaggedUrn.isCompatibleWith
  rw [if_neg (not_not_intro h)]

theorem anyCompat_eq (u1 : TaggedUrn) (l : List TaggedUrn) (p : String)
    (hu : u1.pfx = p) (hl : ∀ u ∈ l, u.pfx = p) :
    anyCompat u1 l = .ok (l.any fun b => compatB u1 b) := by
  induction l with
  | nil => rfl
  | cons b t ih =>
      have hb : u1.pfx = b.pfx := hu.trans (hl b (List.mem_cons_self _ _)).symm
      show (match u1.isCompatibleWith b with
        | .error e => Except.error e
        | .ok true => .ok true
        | .ok false => anyCompat u1 t) = _
      rw [isCompatibleWith_ok hb, ih fun u hu2 => hl u (List.mem_cons_of_mem _ hu2)]
      cases hcb : compatB u1 b <;> simp [List.any_cons, hcb]

theorem areCompatible_eq (l1 l2 : List TaggedUrn) (p : String)
    (h1 : ∀ u ∈ l1, u.pfx = p) (h2 : ∀ u ∈ l2, u.pfx = p) :
    UrnMatcher.areCompatible l1 l2 = .ok (l1.any fun a => l2.any fun b => compatB a b) := by
  induction l1 with
  | nil => rfl
  | cons a t ih =>
      show (match anyCompat a l2 with
        | .error e => Except.error e
        | .ok true => .ok true
        | .ok false => UrnMatcher.areCompatible t l2) = _
      rw [anyCompat_eq a l2 p (h1 a (List.mem_cons_self _ _)) h2,
        ih fun u hu => h1 u (List.mem_cons_of_mem _ hu)]
      cases hca : (l2.any fun b => compatB a b) <;> simp [List.any_cons, hca]

/-- C7 (amended).  On sets sharing one namespace, the middle variant's
`areCompatible` is the existential, symmetric `isCompatibleWith` test over
cross pairs exactly as the claim states. -/
theorem areCompatible_spec (urns1 urns2 : List TaggedUrn) (p : String)
    (h : ∀ u ∈ urns1 ++ urns2, u.pfx = p) :
    UrnMatcher.areCompatible urns1 urns2 =
      .ok (urns1.any fun a => urns2.any fun b => compatB a b)
    ∧ (UrnMatcher.areCompatible urns1 urns2 = .ok true ↔
        ∃ a ∈ urns1, ∃ b ∈ urns2, a.isCompatibleWith b = .ok true)
    ∧ UrnMatcher.areCompatible urns1 urns2 = UrnMatcher.areCompatible urns2 urns1 := by
  have h1 : ∀ u ∈ urns1, u.pfx = p := fun u hu => h u (List.mem_append_left _ hu)
  have h2 : ∀ u ∈ urns2, u.pfx = p := fun u hu => h u (List.mem_append_right _ hu)
  have hmain := areCompatible_eq urns1 urns2 p h1 h2
  refine ⟨hmain, ?_, ?_⟩
  · rw [hmain]
    simp only [Except.ok.injEq, List.any_eq_true]
    constructor
    · rintro ⟨a, ha, b, hb, hab⟩
      refine ⟨a, ha, b, hb, ?_⟩
      rw [isCompatibleWith_ok ((h1 a ha).trans (h2 b hb).symm), hab]
    · rintro ⟨a, ha, b, hb, hab⟩
      refine ⟨a, ha, b, hb, ?_⟩
      rw [isCompatibleWith_ok ((h1 a ha).trans (h2 b hb).symm)] at hab
      exact Except.ok.inj hab
  · rw [hmain, areCompatible_eq urns2 urns1 p h2 h1]
    refine congrArg Except.ok ?_
    rw [Bool.eq_iff_iff]
    simp only [List.any_eq_true]
    constructor
    · rintro ⟨a, ha, b, hb, hab⟩
      exact ⟨b, hb, a, ha, (compatB_symm a b) ▸ hab⟩
    · rintro ⟨b, hb, a, ha, hab⟩
      exact ⟨a, ha, b, hb, (compatB_symm b a) ▸ hab⟩

/-- C7 witness: the amended statement at concrete singleton sets. -/
theorem areCompatible_spec_witness :
    UrnMatcher.areCompatible [TaggedUrn.mk "cap" [("a", "*")]] [TaggedUrn.mk "cap" [("b", "*")]] =
      UrnMatcher.areCompatible [TaggedUrn.mk "cap" [("b", "*")]] [TaggedUrn.mk "cap" [("a", "*")]] :=
  (areCompatible_spec [TaggedUrn.mk "cap" [("a", "*")]] [TaggedUrn.mk "cap" [("b", "*")]]
    "cap" (by decide)).2.2

/-- C7 counterexample.  The newest variant's `areCompatible` (the other
cited source) tests mutual `accepts`, not `isCompatibleWith`: these two
singleton sets contain an `isCompatibleWith`-compatible pair, yet it
returns false. -/
theorem areCompatibleV4_cex :
    UrnMatcher.areCompatibleV4 [TaggedUrn.mk "cap" [("a", "*")]] [TaggedUrn.mk "cap" [("b", "*")]] =
      .ok false
    ∧ (TaggedUrn.mk "cap" [("a", "*")]).isCompatibleWith (TaggedUrn.mk "cap" [("b", "*")]) =
      .ok true := by
  refine ⟨by decide, by decide⟩

/-- Translation of `Object.assign(t1, t2)`: every binding of `t2` is assigned into `t1` in
order, the argument winning on common keys. -/
def objAssign (t1 t2 : Tags) : Tags :=
  t2.foldl (fun acc kv => tagsSet acc kv.1 kv.2) t1

/-- Translation of `merge` (newest variant) as a pure map transformer: spread-copy the
subject's tags, assign the argument's tags over them, and build the result
with the subject's namespace. -/
def TaggedUrn.merge (a b : TaggedUrn) : Except ErrCode TaggedUrn :=
  if a.pfx ≠ b.pfx then .error .pfxMismatch
  else .ok ⟨lowerStr a.pfx, objAssign a.tags b.tags⟩

/-- Heap address of a tag-record object. -/
abbrev Ref := Nat

/-- Heap of tag-record objects.  The mutators are embedded against this
explicit store so that the frame property — no mutator ever writes the
subject object's record — is a statement about where writes land, not an
artefact of purity. -/
abbrev Store := List (Ref × Tags)

/-- Read an object's record (a dangling address reads as empty). -/
def storeGet (σ : Store) (r : Ref) : Tags :=
  match σ with
  | [] => []
  | (r', t) :: rest => if r' = r then t else storeGet rest r

/-- The allocated addresses. -/
def storeRefs (σ : Store) : List Ref :=
  σ.map Prod.fst

/-- A fresh address, strictly above every allocated one. -/
def freshRef (σ : Store) : Ref :=
  (storeRefs σ).foldr max 0 + 1

/-- Write an object's record in place. -/
def storeSet : Store → Ref → Tags → Store
  | [], _, _ => []
  | (r', t') :: rest, r, t => if r' = r then (r, t) :: rest else (r', t') :: storeSet rest r t

/-- A descriptor object: its (already lowercase) namespace and the address
of its tag record. -/
structure UrnObj where
  pfx : String
  tagsRef : Ref
deriving DecidableEq, Repr

/-- The constructor on the fast path (`skipNormalization = true`): it
lowercases the namespace and copies the given record into a fresh object
(`this.tags = { ...tags }`), so the result never aliases its argument. -/
def mkUrnH (σ : Store) (p : String) (t : Tags) : Store × UrnObj :=
  ((freshRef σ, t) :: σ, ⟨lowerStr p, freshRef σ⟩)

/-- Translation of `withTag` (newest variant): reject an empty value, spread-copy the
subject's record into a local, assign the lowercased key there, construct. -/
def withTagH (σ : Store) (self : UrnObj) (key value : String) :
    Store × Except ErrCode UrnObj :=
  if value = "" then (σ, .error .emptyTag)
  else
    let σ1 := (freshRef σ, storeGet σ self.tagsRef) :: σ
    let r1 := freshRef σ
    let σ2 := storeSet σ1 r1 (tagsSet (storeGet σ1 r1) (lowerStr key) value)
    let mk := mkUrnH σ2 self.pfx (storeGet σ2 r1)
    (mk.1, .ok mk.2)

/-- Translation of `withoutTag`: spread-copy, delete the lowercased key in the copy,
construct. -/
def withoutTagH (σ : Store) (self : UrnObj) (key : String) :
    Store × Except ErrCode UrnObj :=
  let σ1 := (freshRef σ, storeGet σ self.tagsRef) :: σ
  let r1 := freshRef σ
  let σ2 := storeSet σ1 r1 (tagsDelete (storeGet σ1 r1) (lowerStr key))
  let mk := mkUrnH σ2 self.pfx (storeGet σ2 r1)
  (mk.1, .ok mk.2)

/-- Translation of `withWildcardTag`: delegate to `withTag` with `*` when the key is
present, otherwise return the subject itself untouched. -/
def withWildcardTagH (σ : Store) (self : UrnObj) (key : String) :
    Store × Except ErrCode UrnObj :=
  if tagsHas (storeGet σ self.tagsRef) (lowerStr key) then withTagH σ self key "*"
  else (σ, .ok self)

/-- The per-key loop of `subset`: copy each requested key the subject holds
into the record at `r`. -/
def subsetLoop (selfRef r : Ref) : List String → Store → Store
  | [], σc => σc
  | key :: rest, σc =>
      match tagsGet (storeGet σc selfRef) (lowerStr key) with
      | some v =>
          subsetLoop selfRef r rest (storeSet σc r (tagsSet (storeGet σc r) (lowerStr key) v))
      | none => subsetLoop selfRef r rest σc

/-- Translation of `subset`: build a fresh empty record, copy the requested keys into it,
construct. -/
def subsetH (σ : Store) (self : UrnObj) (keys : List String) :
    Store × Except ErrCode UrnObj :=
  let σ1 := (freshRef σ, ([] : Tags)) :: σ
  let r1 := freshRef σ
  let σ2 := subsetLoop self.tagsRef r1 keys σ1
  let mk := mkUrnH σ2 self.pfx (storeGet σ2 r1)
  (mk.1, .ok mk.2)

/-- Translation of `merge` (newest variant) on the heap: check namespaces, spread-copy the
subject's record, `Object.assign` the argument's record over the copy,
construct. -/
def mergeH (σ : Store) (self other : UrnObj) : Store × Except ErrCode UrnObj :=
  if self.pfx ≠ other.pfx then (σ, .error .pfxMismatch)
  else
    let σ1 := (freshRef σ, storeGet σ self.tagsRef) :: σ
    let r1 := freshRef σ
    let σ2 := storeSet σ1 r1 (objAssign (storeGet σ1 r1) (storeGet σ1 other.tagsRef))
    let mk := mkUrnH σ2 self.pfx (storeGet σ2 r1)
    (mk.1, .ok mk.2)

theorem le_foldr_max {l : List Nat} {r : Nat} (h : r ∈ l) : r ≤ l.foldr max 0 := by
  induction l with
  | nil => cases h
  | cons a t ih =>
      rcases List.mem_cons.mp h with rfl | h2
      · exact le_max_left _ _
      · exact le_trans (ih h2) (le_max_right _ _)

theorem ne_freshRef {σ : Store} {r : Ref} (h : r ∈ storeRefs σ) : r ≠ freshRef σ :=
  Nat.ne_of_lt (Nat.lt_succ_of_le (le_foldr_max h))

theorem storeGet_cons_ne {σ : Store} {r r0 : Ref} (h : r ≠ r0) (t : Tags) :
    storeGet ((r0, t) :: σ) r = storeGet σ r := by
  show (if r0 = r then t else storeGet σ r) = storeGet σ r
  rw [if_neg (fun hc => h hc.symm)]

theorem storeGet_storeSet_ne {σ : Store} {r r0 : Ref} (h : r ≠ r0) (t : Tags) :
    storeGet (storeSet σ r0 t) r = storeGet σ r := by
  induction σ with
  | nil => rfl
  | cons a rest ih =>
      obtain ⟨r', t'⟩ := a
      show storeGet (if r' = r0 then (r0, t) :: rest else (r', t') :: storeSet rest r0 t) r = _
      by_cases hr : r' = r0
      · rw [if_pos hr, storeGet_cons_ne h t]
        have hr2 : r ≠ r' := fun hc => h (hc.trans hr)
        rw [storeGet_cons_ne hr2 t']
      · rw [if_neg hr]
        show (if r' = r then t' else storeGet (storeSet rest r0 t) r) = _
        by_cases hr2 : r' = r
        · rw [if_pos hr2, show storeGet ((r', t') :: rest) r = t' from if_pos hr2]
        · rw [if_neg hr2, ih, show storeGet ((r', t') :: rest) r = storeGet rest r from if_neg hr2]

theorem storeRefs_storeSet (σ : Store) (r0 : Ref) (t : Tags) :
    storeRefs (storeSet σ r0 t) = storeRefs σ := by
  induction σ with
  | nil => rfl
  | cons a rest ih =>
      obtain ⟨r', t'⟩ := a
      show storeRefs (if r' = r0 then (r0, t) :: rest else (r', t') :: storeSet rest r0 t) = _
      by_cases hr : r' = r0
      · rw [if_pos hr, hr]
        rfl
      · rw [if_neg hr]
        show r' :: storeRefs (storeSet rest r0 t) = r' :: storeRefs rest
        rw [ih]

theorem frame_allocWrite {σ : Store} {r : Ref} (h : r ∈ storeRefs σ) (t t' : Tags) :
    storeGet (storeSet ((freshRef σ, t) :: σ) (freshRef σ) t') r = storeGet σ r := by
  rw [storeGet_storeSet_ne (ne_freshRef h) t', storeGet_cons_ne (ne_freshRef h) t]

theorem refs_allocWrite {σ : Store} {r : Ref} (h : r ∈ storeRefs σ) (t t' : Tags) :
    r ∈ storeRefs (storeSet ((freshRef σ, t) :: σ) (freshRef σ) t') := by
  rw [storeRefs_storeSet]
  show r ∈ freshRef σ :: storeRefs σ
  exact List.mem_cons_of_mem _ h

theorem frame_full {σ : Store} {r : Ref} (h : r ∈ storeRefs σ) (t t' t2 : Tags) (p : String) :
    storeGet (mkUrnH (storeSet ((freshRef σ, t) :: σ) (freshRef σ) t') p t2).1 r =
      storeGet σ r := by
  rw [show (mkUrnH (storeSet ((freshRef σ, t) :: σ) (freshRef σ) t') p t2).1 =
      (freshRef (storeSet ((freshRef σ, t) :: σ) (freshRef σ) t'), t2) ::
        storeSet ((freshRef σ, t) :: σ) (freshRef σ) t' from rfl]
  rw [storeGet_cons_ne (ne_freshRef (refs_allocWrite h t t')) t2]
  exact frame_allocWrite h t t'

theorem subsetLoop_frame (selfRef rr : Ref) (ks : List String) :
    ∀ (σc : Store) {r : Ref}, r ≠ rr →
      storeGet (subsetLoop selfRef rr ks σc) r = storeGet σc r ∧
      storeRefs (subsetLoop selfRef rr ks σc) = storeRefs σc := by
  induction ks with
  | nil => intro σc r h; exact ⟨rfl, rfl⟩
  | cons key rest ih =>
      intro σc r h
      cases hv : tagsGet (storeGet σc selfRef) (lowerStr key) with
      | some v =>
          have hstep : subsetLoop selfRef rr (key :: rest) σc =
              subsetLoop selfRef rr rest
                (storeSet σc rr (tagsSet (storeGet σc rr) (lowerStr key) v)) := by
            show (match tagsGet (storeGet σc selfRef) (lowerStr key) with
              | some v => subsetLoop selfRef rr rest
                  (storeSet σc rr (tagsSet (storeGet σc rr) (lowerStr key) v))
              | none => subsetLoop selfRef rr rest σc) = _
            rw [hv]
          rw [hstep]
          obtain ⟨hg, hr⟩ := ih (storeSet σc rr (tagsSet (storeGet σc rr) (lowerStr key) v)) h
          refine ⟨?_, ?_⟩
          · rw [hg, storeGet_storeSet_ne h]
          · rw [hr, storeRefs_storeSet]
      | none =>
          have hstep : subsetLoop selfRef rr (key :: rest) σc =
              subsetLoop selfRef rr rest σc := by
            show (match tagsGet (storeGet σc selfRef) (lowerStr key) with
              | some v => subsetLoop selfRef rr rest
                  (storeSet σc rr (tagsSet (storeGet σc rr) (lowerStr key) v))
              | none => subsetLoop selfRef rr rest σc) = _
            rw [hv]
          rw [hstep]
          exact ih σc h

/-- C9.  No mutator ever writes the subject object's tag record: whether the
call returns a new descriptor or throws, the subject's record (and, for
`merge`, the argument's record) reads back unchanged afterwards.  Every
write in the embedded code lands on a freshly allocated record, mirroring
the sources' spread-copies. -/
theorem mutators_preserve_subject (σ : Store) (self other : UrnObj) (k v : String)
    (ks : List String) (hself : self.tagsRef ∈ storeRefs σ)
    (hother : other.tagsRef ∈ storeRefs σ) :
    storeGet (withTagH σ self k v).1 self.tagsRef = storeGet σ self.tagsRef
    ∧ storeGet (withoutTagH σ self k).1 self.tagsRef = storeGet σ self.tagsRef
    ∧ storeGet (withWildcardTagH σ self k).1 self.tagsRef = storeGet σ self.tagsRef
    ∧ storeGet (subsetH σ self ks).1 self.tagsRef = storeGet σ self.tagsRef
    ∧ storeGet (mergeH σ self other).1 self.tagsRef = storeGet σ self.tagsRef
    ∧ storeGet (mergeH σ self other).1 other.tagsRef = storeGet σ other.tagsRef := by
  have hwt : ∀ key val, storeGet (withTagH σ self key val).1 self.tagsRef =
      storeGet σ self.tagsRef := by
    intro key val
    by_cases hval : val = ""
    · simp only [withTagH, if_pos hval]
    · simp only [withTagH, if_neg hval]
      exact frame_full hself _ _ _ _
  have hsub : storeGet (subsetH σ self ks).1 self.tagsRef = storeGet σ self.tagsRef := by
    simp only [subsetH]
    obtain ⟨hg, hr⟩ := subsetLoop_frame self.tagsRef (freshRef σ) ks
      ((freshRef σ, ([] : Tags)) :: σ) (ne_freshRef hself)
    rw [show (mkUrnH (subsetLoop self.tagsRef (freshRef σ) ks ((freshRef σ, ([] : Tags)) :: σ))
        self.pfx (storeGet (subsetLoop self.tagsRef (freshRef σ) ks
          ((freshRef σ, ([] : Tags)) :: σ)) (freshRef σ))).1 =
      (freshRef (subsetLoop self.tagsRef (freshRef σ) ks ((freshRef σ, ([] : Tags)) :: σ)),
        storeGet (subsetLoop self.tagsRef (freshRef σ) ks ((freshRef σ, ([] : Tags)) :: σ))
          (freshRef σ)) ::
        subsetLoop self.tagsRef (freshRef σ) ks ((freshRef σ, ([] : Tags)) :: σ) from rfl]
    have hmem : self.tagsRef ∈ storeRefs
        (subsetLoop self.tagsRef (freshRef σ) ks ((freshRef σ, ([] : Tags)) :: σ)) := by
      rw [hr]
      show self.tagsRef ∈ freshRef σ :: storeRefs σ
      exact List.mem_cons_of_mem _ hself
    rw [storeGet_cons_ne (ne_freshRef hmem) _, hg,
      storeGet_cons_ne (ne_freshRef hself) ([] : Tags)]
  have hmg : ∀ r2, r2 ∈ storeRefs σ →
      storeGet (mergeH σ self other).1 r2 = storeGet σ r2 := by
    intro r2 h2
    by_cases hpfx : self.pfx = other.pfx
    · simp only [mergeH, if_neg (not_not_intro hpfx)]
      exact frame_full h2 _ _ _ _
    · simp only [mergeH, if_pos hpfx]
  refine ⟨hwt k v, ?_, ?_, hsub, hmg _ hself, hmg _ hother⟩
  · simp only [withoutTagH]
    exact frame_full hself _ _ _ _
  · by_cases hhas : tagsHas (storeGet σ self.tagsRef) (lowerStr k) = true
    · simp only [withWildcardTagH, if_pos hhas]
      exact hwt k "*"
    · simp only [withWildcardTagH, if_neg hhas]

/-- C9 witness: a live two-object store and concrete arguments. -/
theorem mutators_preserve_subject_witness :
    storeGet (withTagH [(0, [("a", "x")]), (1, [("b", "y")])] ⟨"cap", 0⟩ "k" "v").1 0 =
      [("a", "x")] := by
  have h := (mutators_preserve_subject [(0, [("a", "x")]), (1, [("b", "y")])]
    ⟨"cap", 0⟩ ⟨"cap", 1⟩ "k" "v" ["a"] (by decide) (by decide)).1
  exact h.trans (by decide)

theorem tagsGet_tagsSet_self (t : Tags) (k v : String) :
    tagsGet (tagsSet t k v) k = some v := by
  induction t with
  | nil => simp [tagsSet, tagsGet]
  | cons a rest ih =>
      obtain ⟨k', v'⟩ := a
      show tagsGet (if k' = k then (k, v) :: rest else (k', v') :: tagsSet rest k v) k = _
      by_cases h : k' = k
      · rw [if_pos h]
        simp [tagsGet]
      · rw [if_neg h]
        show (if k' = k then some v' else tagsGet (tagsSet rest k v) k) = _
        rw [if_neg h, ih]

theorem tagsGet_tagsSet_ne {k k2 : String} (h : k2 ≠ k) (t : Tags) (v : String) :
    tagsGet (tagsSet t k v) k2 = tagsGet t k2 := by
  induction t with
  | nil =>
      show (if k = k2 then some v else none) = none
      rw [if_neg (fun hc => h hc.symm)]
  | cons a rest ih =>
      obtain ⟨k', v'⟩ := a
      show tagsGet (if k' = k then (k, v) :: rest else (k', v') :: tagsSet rest k v) k2 = _
      by_cases hk : k' = k
      · rw [if_pos hk]
        show (if k = k2 then some v else tagsGet rest k2) = _
        rw [if_neg (fun hc => h hc.symm), hk]
        show _ = (if k = k2 then some v' else tagsGet rest k2)
        rw [if_neg (fun hc => h hc.symm)]
      · rw [if_neg hk]
        show (if k' = k2 then some v' else tagsGet (tagsSet rest k v) k2) = _
        rw [ih]
        rfl

theorem tagsGet_eq_none_of_not_mem {t : Tags} {k : String} (h : k ∉ tagsKeys t) :
    tagsGet t k = none := by
  cases hg : tagsGet t k with
  | none => rfl
  | some v =>
      exact absurd ((tagsGet_isSome_iff t k).mp (by rw [hg]; rfl)) h

theorem tagsGet_objAssign (t2 : Tags) :
    ∀ (t1 : Tags) (k : String), tagsWF t2 →
      tagsGet (objAssign t1 t2) k =
        (match tagsGet t2 k with
          | some v => some v
          | none => tagsGet t1 k) := by
  induction t2 with
  | nil => intro t1 k _; rfl
  | cons a rest ih =>
      intro t1 k hw
      obtain ⟨k0, v0⟩ := a
      have hw' : tagsWF rest ∧ k0 ∉ tagsKeys rest := by
        unfold tagsWF tagsKeys at hw ⊢
        simp only [List.map_cons, List.nodup_cons] at hw
        exact ⟨hw.2, hw.1⟩
      have hstep : objAssign t1 ((k0, v0) :: rest) = objAssign (tagsSet t1 k0 v0) rest := rfl
      rw [hstep, ih (tagsSet t1 k0 v0) k hw'.1]
      by_cases hk : k = k0
      · rw [hk, tagsGet_eq_none_of_not_mem hw'.2]
        have hg0 : tagsGet ((k0, v0) :: rest) k0 = some v0 := by
          show (if k0 = k0 then some v0 else tagsGet rest k0) = _
          rw [if_pos rfl]
        rw [hg0]
        exact tagsGet_tagsSet_self t1 k0 v0
      · have hg : tagsGet ((k0, v0) :: rest) k = tagsGet rest k := by
          show (if k0 = k then some v0 else tagsGet rest k) = _
          rw [if_neg (fun hc => hk hc.symm)]
        rw [hg]
        cases tagsGet rest k with
        | some v => rfl
        | none => exact tagsGet_tagsSet_ne hk t1 v0

/-- C10.  `merge` requires equal namespaces (else `PREFIX_MISMATCH`) and
returns the union of the two maps in which the argument's binding wins on
every common key: the merged lookup is the argument's when present, else the
subject's, and a key is present in the result iff it is present on either
side. -/
theorem merge_spec (a b : TaggedUrn) (hw : tagsWF b.tags) :
    a.merge b = (if a.pfx = b.pfx
      then .ok ⟨lowerStr a.pfx, objAssign a.tags b.tags⟩
      else .error .pfxMismatch)
    ∧ (∀ k, tagsGet (objAssign a.tags b.tags) k =
        (match tagsGet b.tags k with
          | some v => some v
          | none => tagsGet a.tags k))
    ∧ (∀ k, (tagsGet (objAssign a.tags b.tags) k).isSome =
        ((tagsGet b.tags k).isSome || (tagsGet a.tags k).isSome)) := by
  have h2 := fun k => tagsGet_objAssign b.tags a.tags k hw
  refine ⟨?_, h2, ?_⟩
  · unfold TaggedUrn.merge
    by_cases h : a.pfx = b.pfx
    · rw [if_neg (not_not_intro h), if_pos h]
    · rw [if_pos h, if_neg h]
  · intro k
    rw [h2 k]
    cases tagsGet b.tags k with
    | some v => rfl
    | none => cases tagsGet a.tags k <;> rfl

/-- C10 witness: on a concrete overlap the argument's binding wins and the
off-overlap keys survive. -/
theorem merge_spec_witness :
    tagsGet (objAssign [("j", "a1"), ("k", "a2")] [("k", "b2")]) "k" = some "b2" := by
  have h := (merge_spec ⟨"cap", [("j", "a1"), ("k", "a2")]⟩ ⟨"cap", [("k", "b2")]⟩
    (by decide)).2.1 "k"
  exact h.trans (by decide)
